import Mathlib

/-!
Verification of the LieOTAlign protein-structure alignment tool
(`gemini_tm_align_final.py`) against its natural-language specification.

The numeric core of the program (rotation parameterization via the matrix
exponential, TM-score kernel, Sinkhorn normalization, Kabsch refinement)
is embedded over the real numbers `ℝ`, the idealized semantics of the
program's floating-point arithmetic.  The discrete parts (PDB record
filtering, greedy decoding of the assignment matrix, control flow of the
output phase) are embedded as computable functions on lists.
-/

namespace LieOTAlign

open scoped Matrix BigOperators

noncomputable section RealCore

/-- Embedding of `get_d0`: the TM-score scale constant,
`1.24 * (length - 15)**(1/3) - 1.8 if length > 15 else 0.5`. -/
def get_d0 (length : ℝ) : ℝ :=
  if 15 < length then 1.24 * (length - 15) ^ ((1 : ℝ) / 3) - 1.8 else 0.5

/-- Embedding of the skew-symmetric generator matrix `W` built inside
`get_transformation_matrix` from the first three parameters:
`W[0,1] = -w2, W[0,2] = w1; W[1,0] = w2, W[1,2] = -w0; W[2,0] = -w1, W[2,1] = w0`,
all diagonal entries zero. -/
def skewGenerator (w : Fin 3 → ℝ) : Matrix (Fin 3) (Fin 3) ℝ :=
  Matrix.of ![![0, -(w 2), w 1], ![w 2, 0, -(w 0)], ![-(w 1), w 0, 0]]

/-- Embedding of `get_transformation_matrix`: splits the 6-parameter vector
into `w` (first three) and `u` (last three) and returns
`(torch.linalg.matrix_exp(W), u)`, i.e. the matrix exponential of the
skew-symmetric generator together with the translation. -/
def get_transformation_matrix (p : Fin 6 → ℝ) :
    Matrix (Fin 3) (Fin 3) ℝ × (Fin 3 → ℝ) :=
  (NormedSpace.exp ℝ (skewGenerator fun i => p (Fin.castAdd 3 i)),
   fun i => p (Fin.natAdd 3 i))

end RealCore

theorem skewGenerator_transpose (w : Fin 3 → ℝ) :
    (skewGenerator w)ᵀ = -(skewGenerator w) := by
  ext i j
  fin_cases i <;> fin_cases j <;>
    simp [skewGenerator, Matrix.transpose_apply, Matrix.neg_apply]

theorem exp_skew_mul_exp_neg_skew (w : Fin 3 → ℝ) :
    NormedSpace.exp ℝ (-(skewGenerator w)) * NormedSpace.exp ℝ (skewGenerator w) = 1 := by
  rw [← Matrix.exp_add_of_commute ℝ (-(skewGenerator w)) (skewGenerator w)
      (Commute.refl (skewGenerator w)).neg_left]
  rw [neg_add_cancel]
  exact NormedSpace.exp_zero

theorem exp_skew_orthogonal (w : Fin 3 → ℝ) :
    (NormedSpace.exp ℝ (skewGenerator w))ᵀ * NormedSpace.exp ℝ (skewGenerator w) = 1 := by
  rw [← Matrix.exp_transpose, skewGenerator_transpose]
  exact exp_skew_mul_exp_neg_skew w

theorem exp_skew_det_sq (w : Fin 3 → ℝ) :
    (NormedSpace.exp ℝ (skewGenerator w)).det ^ 2 = 1 := by
  have h := congrArg Matrix.det (exp_skew_orthogonal w)
  rw [Matrix.det_mul, Matrix.det_transpose, Matrix.det_one] at h
  rw [sq]
  exact h

theorem exp_skew_det_nonneg (w : Fin 3 → ℝ) :
    0 ≤ (NormedSpace.exp ℝ (skewGenerator w)).det := by
  have hsplit : skewGenerator w =
      (2⁻¹ : ℝ) • skewGenerator w + (2⁻¹ : ℝ) • skewGenerator w := by
    rw [← add_smul]
    norm_num
  have h := Matrix.exp_add_of_commute ℝ ((2⁻¹ : ℝ) • skewGenerator w)
      ((2⁻¹ : ℝ) • skewGenerator w) (Commute.refl _)
  rw [← hsplit] at h
  have hdet := congrArg Matrix.det h
  rw [Matrix.det_mul] at hdet
  rw [hdet]
  exact mul_self_nonneg _

theorem exp_skew_det_one (w : Fin 3 → ℝ) :
    (NormedSpace.exp ℝ (skewGenerator w)).det = 1 := by
  have hsq := exp_skew_det_sq w
  have hnn := exp_skew_det_nonneg w
  set d := (NormedSpace.exp ℝ (skewGenerator w)).det with hd
  have hfac : (d - 1) * (d + 1) = 0 := by ring_nf; linear_combination hsq
  rcases mul_eq_zero.mp hfac with h | h
  · linarith
  · linarith

/-- C1: for every real 6-parameter vector, the rotation returned by
`get_transformation_matrix` (the matrix exponential of the skew-symmetric
generator built from the first three components) is a proper rotation:
`Rᵀ * R = 1` and `det R = 1`. -/
theorem get_transformation_matrix_proper_rotation (p : Fin 6 → ℝ) :
    ((get_transformation_matrix p).1)ᵀ * (get_transformation_matrix p).1 = 1 ∧
      ((get_transformation_matrix p).1).det = 1 :=
  ⟨exp_skew_orthogonal _, exp_skew_det_one _⟩

/-- C5: the scale constant `get_d0` equals `1.24 * (L - 15)^(1/3) - 1.8`
for every length `L > 15`, equals `0.5` for every `L ≤ 15`, and at `L = 16`
evaluates to the literal negative constant `1.24 - 1.8 = -0.56`. -/
theorem get_d0_spec :
    (∀ L : ℝ, (15 < L → get_d0 L = 1.24 * (L - 15) ^ ((1 : ℝ) / 3) - 1.8) ∧
      (L ≤ 15 → get_d0 L = 0.5)) ∧
    get_d0 16 = -0.56 := by
  constructor
  · intro L
    constructor
    · intro h
      rw [get_d0, if_pos h]
    · intro h
      rw [get_d0, if_neg (not_lt.mpr h)]
  · rw [get_d0, if_pos (by norm_num : (15 : ℝ) < 16)]
    norm_num

/-- Witness for C5: the two branch hypotheses discharged at the concrete
lengths 16 and 10. -/
theorem get_d0_spec_witness :
    get_d0 16 = 1.24 * ((16 : ℝ) - 15) ^ ((1 : ℝ) / 3) - 1.8 ∧ get_d0 10 = 0.5 :=
  ⟨(get_d0_spec.1 16).1 (by norm_num), (get_d0_spec.1 10).2 (by norm_num)⟩

section Decoder

variable {α : Type*} [LinearOrder α] {m n : ℕ}

/-- First column index attaining the maximum of a row, the tie rule of
`torch.argmax` (index of the first maximal value). -/
def bestCol (row : Fin (n + 1) → α) : Fin (n + 1) :=
  (List.argmax row (List.finRange (n + 1))).getD 0

/-- Lexicographic order on index pairs, the order used by the final
`sorted(aligned_pairs)` call on Python tuples. -/
def pairLe (a b : Fin m × Fin n) : Prop :=
  a.1 < b.1 ∨ (a.1 = b.1 ∧ a.2 ≤ b.2)

instance : DecidableRel (pairLe (m := m) (n := n)) := fun a b => by
  unfold pairLe; infer_instance

instance : IsTotal (Fin m × Fin n) pairLe := by
  constructor
  intro a b
  rcases lt_trichotomy a.1 b.1 with h | h | h
  · exact Or.inl (Or.inl h)
  · rcases le_total a.2 b.2 with h2 | h2
    · exact Or.inl (Or.inr ⟨h, h2⟩)
    · exact Or.inr (Or.inr ⟨h.symm, h2⟩)
  · exact Or.inr (Or.inl h)

instance : IsTrans (Fin m × Fin n) pairLe := by
  constructor
  rintro a b c (h1 | ⟨h1, h1b⟩) (h2 | ⟨h2, h2b⟩)
  · exact Or.inl (h1.trans h2)
  · exact Or.inl (h2 ▸ h1)
  · exact Or.inl (h1 ▸ h2)
  · exact Or.inr ⟨h1.trans h2, h1b.trans h2b⟩

/-- The greedy acceptance walk of `decode_alignment_matrix`: visit the rows
in the given order; accept the pair `(i, best i)` when the column `best i`
is not yet used, recording it as used; otherwise skip the row. -/
def greedyAccept (best : Fin m → Fin (n + 1)) :
    List (Fin m) → List (Fin (n + 1)) → List (Fin m × Fin (n + 1))
  | [], _ => []
  | i :: rest, used =>
    if best i ∈ used then greedyAccept best rest used
    else (i, best i) :: greedyAccept best rest (best i :: used)

/-- Embedding of `decode_alignment_matrix`: per-row argmax columns and
confidences, rows visited in order of descending confidence
(`torch.argsort(confidences, descending=True)`), greedy acceptance with a
used-column set, and a final lexicographic sort of the accepted pairs. -/
def decode_alignment_matrix (P : Fin m → Fin (n + 1) → α) :
    List (Fin m × Fin (n + 1)) :=
  let best : Fin m → Fin (n + 1) := fun i => bestCol (P i)
  let conf : Fin m → α := fun i => P i (best i)
  let order := List.insertionSort (fun a b => conf b ≤ conf a) (List.finRange m)
  List.insertionSort pairLe (greedyAccept best order [])

theorem greedyAccept_fst_sublist (best : Fin m → Fin (n + 1)) :
    ∀ (l : List (Fin m)) (used : List (Fin (n + 1))),
      List.Sublist ((greedyAccept best l used).map Prod.fst) l
  | [], _ => List.nil_sublist _
  | i :: rest, used => by
    rw [greedyAccept]
    by_cases h : best i ∈ used
    · rw [if_pos h]
      exact (greedyAccept_fst_sublist best rest used).cons i
    · rw [if_neg h]
      exact (greedyAccept_fst_sublist best rest (best i :: used)).cons₂ i

theorem greedyAccept_snd_not_used (best : Fin m → Fin (n + 1)) :
    ∀ (l : List (Fin m)) (used : List (Fin (n + 1)))
      (p : Fin m × Fin (n + 1)), p ∈ greedyAccept best l used → p.2 ∉ used
  | [], _, p => by simp [greedyAccept]
  | i :: rest, used, p => by
    rw [greedyAccept]
    by_cases h : best i ∈ used
    · rw [if_pos h]
      exact greedyAccept_snd_not_used best rest used p
    · rw [if_neg h]
      intro hp
      rcases List.mem_cons.mp hp with h1 | h1
      · rw [h1]
        exact h
      · intro hu
        exact greedyAccept_snd_not_used best rest (best i :: used) p h1
          (List.mem_cons_of_mem _ hu)

theorem greedyAccept_snd_nodup (best : Fin m → Fin (n + 1)) :
    ∀ (l : List (Fin m)) (used : List (Fin (n + 1))),
      ((greedyAccept best l used).map Prod.snd).Nodup
  | [], _ => by simp [greedyAccept]
  | i :: rest, used => by
    rw [greedyAccept]
    by_cases h : best i ∈ used
    · rw [if_pos h]
      exact greedyAccept_snd_nodup best rest used
    · rw [if_neg h]
      rw [List.map_cons, List.nodup_cons]
      refine ⟨?_, greedyAccept_snd_nodup best rest (best i :: used)⟩
      intro hmem
      rcases List.mem_map.mp hmem with ⟨p, hp, hps⟩
      exact greedyAccept_snd_not_used best rest (best i :: used) p hp
        (hps ▸ List.mem_cons_self _ _)

theorem decode_perm_greedy (P : Fin m → Fin (n + 1) → α) :
    List.Perm (decode_alignment_matrix P)
      (greedyAccept (fun i => bestCol (P i))
        (List.insertionSort
          (fun a b => P b (bestCol (P b)) ≤ P a (bestCol (P a)))
          (List.finRange m)) []) :=
  List.perm_insertionSort _ _

theorem decode_fst_nodup (P : Fin m → Fin (n + 1) → α) :
    ((decode_alignment_matrix P).map Prod.fst).Nodup := by
  have hperm := (decode_perm_greedy P).map Prod.fst
  refine hperm.nodup_iff.mpr ?_
  refine List.Sublist.nodup (greedyAccept_fst_sublist _ _ _) ?_
  exact ((List.perm_insertionSort _ _).nodup_iff).mpr (List.nodup_finRange m)

theorem decode_snd_nodup (P : Fin m → Fin (n + 1) → α) :
    ((decode_alignment_matrix P).map Prod.snd).Nodup := by
  have hperm := (decode_perm_greedy P).map Prod.snd
  exact hperm.nodup_iff.mpr (greedyAccept_snd_nodup _ _ _)

theorem decode_sorted_pairLe (P : Fin m → Fin (n + 1) → α) :
    (decode_alignment_matrix P).Sorted pairLe :=
  List.sorted_insertionSort pairLe _

/-- C3: for every soft assignment matrix `P` with `m` rows and `n + 1`
columns, `decode_alignment_matrix` returns a list of index pairs whose
mobile indices are pairwise distinct, whose reference indices are pairwise
distinct, whose length is at most `min m (n + 1)`, and which is sorted
strictly ascending by mobile index. -/
theorem decode_alignment_matrix_spec (P : Fin m → Fin (n + 1) → α) :
    ((decode_alignment_matrix P).map Prod.fst).Nodup ∧
    ((decode_alignment_matrix P).map Prod.snd).Nodup ∧
    (decode_alignment_matrix P).length ≤ min m (n + 1) ∧
    (decode_alignment_matrix P).Pairwise (fun p q => p.1 < q.1) := by
  refine ⟨decode_fst_nodup P, decode_snd_nodup P, ?_, ?_⟩
  · refine le_min ?_ ?_
    · have h := (decode_fst_nodup P).length_le_card
      rw [List.length_map] at h
      simpa using h
    · have h := (decode_snd_nodup P).length_le_card
      rw [List.length_map] at h
      simpa using h
  · have hs := decode_sorted_pairLe P
    have hne : (decode_alignment_matrix P).Pairwise fun p q => p.1 ≠ q.1 :=
      List.pairwise_map.mp (decode_fst_nodup P)
    have := List.Pairwise.and hs hne
    refine this.imp ?_
    rintro p q ⟨hle, hneq⟩
    rcases hle with h | ⟨h, _⟩
    · exact h
    · exact absurd h hneq

end Decoder

section PdbText

/-- Characters stripped by Python's default `str.strip` / `str.rstrip`
(ASCII whitespace; the PDB format is ASCII). -/
def isSpacePy (c : Char) : Bool :=
  c = ' ' || c = '\t' || c = '\n' || c = '\x0d' || c = '\x0b' || c = '\x0c'

/-- Python `s[a:b]` on a character list. -/
def pySlice (l : List Char) (a b : ℕ) : List Char :=
  (l.take b).drop a

/-- Python `s[i]` on a character list; the program only indexes positions
that exist in well-formed fixed-column atom records, so out-of-range
access is given the blank default. -/
def pyCharAt (l : List Char) (i : ℕ) : Char :=
  l.getD i ' '

/-- Python `s.strip()`. -/
def pyStrip (l : List Char) : List Char :=
  ((l.dropWhile isSpacePy).reverse.dropWhile isSpacePy).reverse

/-- Python `s.rstrip()`. -/
def pyRstrip (l : List Char) : List Char :=
  (l.reverse.dropWhile isSpacePy).reverse

/-- The `AA_3_TO_1` table: three-letter residue names to one-letter codes,
unknown names mapping to the sentinel `X`. -/
def aa3to1 (s : String) : Char :=
  if s = "ALA" then 'A' else if s = "ARG" then 'R' else if s = "ASN" then 'N'
  else if s = "ASP" then 'D' else if s = "CYS" then 'C' else if s = "GLN" then 'Q'
  else if s = "GLU" then 'E' else if s = "GLY" then 'G' else if s = "HIS" then 'H'
  else if s = "ILE" then 'I' else if s = "LEU" then 'L' else if s = "LYS" then 'K'
  else if s = "MET" then 'M' else if s = "PHE" then 'F' else if s = "PRO" then 'P'
  else if s = "SER" then 'S' else if s = "THR" then 'T' else if s = "TRP" then 'W'
  else if s = "TYR" then 'Y' else if s = "VAL" then 'V' else 'X'

/-- The record filter `line.startswith("ATOM")`. -/
def isAtomRecord (line : List Char) : Bool :=
  line.take 4 = [ 'A', 'T', 'O', 'M']

/-- The alpha-carbon filter `line[12:16].strip() != "CA"` (negated). -/
def isCA (line : List Char) : Bool :=
  pyStrip (pySlice line 12 16) = [ 'C', 'A']

/-- The chain filter `chain_id and line[21].strip() != chain_id` (negated):
`none` models an unset (falsy) chain argument. -/
def chainOk (chain : Option (List Char)) (line : List Char) : Bool :=
  match chain with
  | none => true
  | some c => pyStrip [pyCharAt line 21] = c

/-- The alternate-location filter `line[16] not in (' ', 'A')` (negated). -/
def altOk (line : List Char) : Bool :=
  pyCharAt line 16 = ' ' || pyCharAt line 16 = 'A'

/-- The residue unique id `(line[21], line[22:27])`. -/
def residueUid (line : List Char) : Char × List Char :=
  (pyCharAt line 21, pySlice line 22 27)

/-- The filtering loop of `parse_pdb`: walks the file lines keeping the
atom records that pass the filters, threading the `seen_residues` set
(used only in alpha-carbon mode, where the first record of each residue
unique id wins). -/
def parseLoop (chain : Option (List Char)) (caOnly : Bool) :
    List (List Char) → List (Char × List Char) → List (List Char)
  | [], _ => []
  | line :: rest, seen =>
    if ¬ isAtomRecord line then parseLoop chain caOnly rest seen
    else if caOnly ∧ ¬ isCA line then parseLoop chain caOnly rest seen
    else if ¬ chainOk chain line then parseLoop chain caOnly rest seen
    else if ¬ altOk line then parseLoop chain caOnly rest seen
    else if caOnly ∧ residueUid line ∈ seen then parseLoop chain caOnly rest seen
    else line :: parseLoop chain caOnly rest
      (if caOnly then residueUid line :: seen else seen)

/-- The index-aligned result of `parse_pdb`: the raw coordinate fields of
each retained record (columns 30-38, 38-46, 46-54, whose numeric
conversion by `float` is not re-modelled), the raw record text, and the
one-letter sequence. -/
structure ParsedPdb where
  coords : List (List Char × List Char × List Char)
  atomLines : List (List Char)
  sequence : List Char
  deriving DecidableEq

/-- Embedding of `parse_pdb`: `none` for the file models the
file-not-found condition (the source prints a diagnostic and returns the
empty triple `(None, None, None)`); an empty filter result likewise
produces the empty triple, modelled as `none`. -/
def parse_pdb (file : Option (List (List Char))) (chain : Option (List Char))
    (caOnly : Bool) : Option ParsedPdb :=
  match file with
  | none => none
  | some lines =>
    let kept := parseLoop chain caOnly lines []
    if kept = [] then none
    else some
      { coords := kept.map fun l =>
          (pySlice l 30 38, pySlice l 38 46, pySlice l 46 54)
        atomLines := kept
        sequence := kept.map fun l => aa3to1 (String.mk (pySlice l 17 20)) }

/-- Embedding of the per-record work of `write_pdb`: the output record is
`line[:30]`, the three freshly formatted 8-character coordinate fields,
then `line[54:].rstrip()` and a newline. -/
def write_pdb_line (xs ys zs : List Char) (line : List Char) : List Char :=
  line.take 30 ++ xs ++ ys ++ zs ++ pyRstrip (line.drop 54) ++ [ '\n']

/-- Which files `main` writes: both parses must succeed before the
optimization, analysis and output phases run; on a failed parse `main`
returns at once, writing neither the aligned structure nor the matrix
report. -/
def mainOutputFiles (mobile ref : Option (List (List Char)))
    (mobileChain refChain : Option (List Char))
    (outputRequested matrixRequested : Bool) : Bool × Bool :=
  match parse_pdb mobile mobileChain true, parse_pdb ref refChain true with
  | some _, some _ => (outputRequested, matrixRequested)
  | _, _ => (false, false)

end PdbText

section PdbTheorems

theorem parseLoop_full_eq_filter (chain : Option (List Char)) :
    ∀ (lines : List (List Char)) (seen : List (Char × List Char)),
      parseLoop chain false lines seen =
        lines.filter fun l => isAtomRecord l && chainOk chain l && altOk l
  | [], _ => rfl
  | line :: rest, seen => by
    rw [parseLoop, List.filter_cons]
    cases h1 : isAtomRecord line <;>
      cases h2 : chainOk chain line <;>
        cases h3 : altOk line <;>
          simp [h1, h2, h3, parseLoop_full_eq_filter chain rest seen]

theorem parse_pdb_atomLines (lines : List (List Char)) (chain : Option (List Char))
    (caOnly : Bool) (res : ParsedPdb)
    (h : parse_pdb (some lines) chain caOnly = some res) :
    res.atomLines = parseLoop chain caOnly lines [] := by
  rw [parse_pdb] at h
  by_cases hk : parseLoop chain caOnly lines [] = []
  · rw [if_pos hk] at h
    exact absurd h (by simp)
  · rw [if_neg hk] at h
    have := (Option.some_injective _ h).symm
    rw [this]

/-- C9: reloading the full atom set (`c_alpha_only=False`) still applies
the alternate-location filter: the retained records are exactly the atom
records passing the chain and alternate-location filters, with no
per-residue deduplication, and in particular every retained record has a
blank or primary alternate-location marker. -/
theorem parse_pdb_full_reload_altloc (lines : List (List Char))
    (chain : Option (List Char)) (res : ParsedPdb)
    (h : parse_pdb (some lines) chain false = some res) :
    res.atomLines =
      (lines.filter fun l => isAtomRecord l && chainOk chain l && altOk l) ∧
    ∀ l ∈ res.atomLines, altOk l := by
  have hlines := parse_pdb_atomLines lines chain false res h
  rw [parseLoop_full_eq_filter] at hlines
  refine ⟨hlines, ?_⟩
  intro l hl
  rw [hlines] at hl
  have := List.of_mem_filter hl
  simp only [Bool.and_eq_true] at this
  exact this.2

/-- A realistic fixed-column atom record with alternate-location marker `B`. -/
def demoLineAltB : List Char :=
  ("ATOM      1  CA BALA A   1      11.104  13.207   2.100" ++
   "  0.50  0.00           C\n").toList

/-- A realistic fixed-column atom record with a blank alternate-location
marker. -/
def demoLineBlank : List Char :=
  ("ATOM      2  CA  GLY A   2      12.560  14.100   3.400" ++
   "  1.00  0.00           C\n").toList

/-- A two-record input file containing one primary and one non-primary
alternate-location record. -/
def demoFullLines : List (List Char) :=
  [demoLineAltB, demoLineBlank]

/-- The result of the full-atom reload of `demoFullLines`. -/
def demoFullParsed : ParsedPdb :=
  (parse_pdb (some demoFullLines) none false).getD ⟨[], [], []⟩

/-- Witness for C9 at the concrete two-record file: the parse succeeds and
the filter characterization holds there. -/
theorem parse_pdb_full_reload_altloc_witness :
    parse_pdb (some demoFullLines) none false = some demoFullParsed ∧
    (demoFullParsed.atomLines =
        (demoFullLines.filter fun l =>
          isAtomRecord l && chainOk none l && altOk l) ∧
      ∀ l ∈ demoFullParsed.atomLines, altOk l) :=
  ⟨by decide, parse_pdb_full_reload_altloc demoFullLines none demoFullParsed
    (by decide)⟩

/-- C8: a missing file (file-not-found) or an empty filter result
(empty-structure) makes `parse_pdb` return the empty result rather than a
parse, and `main` then aborts, writing neither the aligned structure file
nor the matrix file. -/
theorem parse_pdb_error_handling :
    (∀ (chain : Option (List Char)) (caOnly : Bool),
      parse_pdb none chain caOnly = none) ∧
    (∀ (lines : List (List Char)) (chain : Option (List Char)) (caOnly : Bool),
      parseLoop chain caOnly lines [] = [] →
      parse_pdb (some lines) chain caOnly = none) ∧
    (∀ (mobile ref : Option (List (List Char)))
      (mc rc : Option (List Char)) (outReq matReq : Bool),
      parse_pdb mobile mc true = none ∨ parse_pdb ref rc true = none →
      mainOutputFiles mobile ref mc rc outReq matReq = (false, false)) := by
  refine ⟨fun _ _ => rfl, ?_, ?_⟩
  · intro lines chain caOnly h
    rw [parse_pdb, if_pos h]
  · intro mobile ref mc rc outReq matReq h
    rcases h with h | h <;>
      cases hm : parse_pdb mobile mc true <;>
        cases hr : parse_pdb ref rc true <;>
          simp_all [mainOutputFiles]

/-- Witness for C8: the error propagation evaluated at a missing file, at
a file with no matching records, and through the caller. -/
theorem parse_pdb_error_handling_witness :
    parse_pdb none none true = none ∧
    parse_pdb (some [[ 'X']]) none true = none ∧
    mainOutputFiles none (some [demoLineBlank]) none none true true =
      (false, false) :=
  ⟨parse_pdb_error_handling.1 none true,
   parse_pdb_error_handling.2.1 [[ 'X']] none true (by decide),
   parse_pdb_error_handling.2.2 none (some [demoLineBlank]) none none true true
     (Or.inl (parse_pdb_error_handling.1 none true))⟩

/-- Counterexample to C7 as stated: on a record carrying trailing
whitespace, the writer does not leave every non-coordinate byte
unchanged, because `line[54:].rstrip()` deletes the trailing whitespace. -/
theorem write_pdb_line_not_byte_identical :
    write_pdb_line "  11.104".toList "  13.207".toList "   2.100".toList
        (("ATOM      1  N   ALA A   1      11.104  13.207   2.100" ++
          "  1.00  0.00           N \n").toList) ≠
      (("ATOM      1  N   ALA A   1      11.104  13.207   2.100" ++
        "  1.00  0.00           N \n").toList).take 30 ++
        "  11.104".toList ++ "  13.207".toList ++ "   2.100".toList ++
        (("ATOM      1  N   ALA A   1      11.104  13.207   2.100" ++
          "  1.00  0.00           N \n").toList).drop 54 := by
  decide

/-- C7 (amended): the writer changes only the three coordinate columns and
the record's trailing whitespace; on any record without trailing
whitespace beyond its final newline, every non-coordinate byte is left
unchanged. -/
theorem write_pdb_line_spec (xs ys zs line : List Char)
    (h : pyRstrip (line.drop 54) ++ [ '\n'] = line.drop 54) :
    write_pdb_line xs ys zs line =
      line.take 30 ++ xs ++ ys ++ zs ++ line.drop 54 := by
  simp only [write_pdb_line, List.append_assoc]
  rw [h]

/-- Witness for the amended C7 at a concrete whitespace-free record. -/
theorem write_pdb_line_spec_witness :
    write_pdb_line "  11.104".toList "  13.207".toList "   2.100".toList
        demoLineBlank =
      demoLineBlank.take 30 ++ "  11.104".toList ++ "  13.207".toList ++
        "   2.100".toList ++ demoLineBlank.drop 54 :=
  write_pdb_line_spec _ _ _ demoLineBlank (by decide)

end PdbTheorems

noncomputable section Scorer

/-- Embedding of `torch.sigmoid`. -/
def sigmoid (x : ℝ) : ℝ :=
  1 / (1 + Real.exp (-x))

/-- Embedding of `torch.cdist`: the pairwise Euclidean distance matrix. -/
def cdist {m n : ℕ} (a : Fin m → Fin 3 → ℝ) (b : Fin n → Fin 3 → ℝ) :
    Fin m → Fin n → ℝ :=
  fun i j => Real.sqrt (∑ k, (a i k - b j k) ^ 2)

/-- One row-normalization step of `sinkhorn_iterations`:
`P / (P.sum(dim=1, keepdim=True) + 1e-8)`. -/
def rowNormalize {m n : ℕ} (P : Fin m → Fin n → ℝ) : Fin m → Fin n → ℝ :=
  fun i j => P i j / ((∑ j2, P i j2) + 1e-8)

/-- One column-normalization step of `sinkhorn_iterations`:
`P / (P.sum(dim=0, keepdim=True) + 1e-8)`. -/
def colNormalize {m n : ℕ} (P : Fin m → Fin n → ℝ) : Fin m → Fin n → ℝ :=
  fun i j => P i j / ((∑ i2, P i2 j) + 1e-8)

/-- Embedding of `sinkhorn_iterations`: `num_iters` rounds, each dividing
every row by its sum plus `1e-8` and then every column by its sum plus
the same `1e-8`. -/
def sinkhorn_iterations {m n : ℕ} (M : Fin m → Fin n → ℝ) :
    ℕ → Fin m → Fin n → ℝ
  | 0 => M
  | num_iters + 1 => sinkhorn_iterations (colNormalize (rowNormalize M)) num_iters

/-- Embedding of `get_sinkhorn_alignment_score`: the reward matrix is the
TM-score kernel times the sigmoid distance gate, the soft assignment is
the Sinkhorn normalization of `exp(gamma * reward)`, and the score is
`sum(P * reward) / len_b`.  The source function also receives `len_a`,
which it never reads; the lengths appear here as the index bounds
`m` and `n` and the scale length `len_b`. -/
def get_sinkhorn_alignment_score {m n : ℕ} (coords_a : Fin m → Fin 3 → ℝ)
    (coords_b : Fin n → Fin 3 → ℝ) (len_b : ℕ) (cutoff steepness gamma : ℝ)
    (sinkhorn_iters : ℕ) : ℝ × (Fin m → Fin n → ℝ) :=
  let d0 := get_d0 (len_b : ℝ)
  let dist_matrix := cdist coords_a coords_b
  let s_ij : Fin m → Fin n → ℝ := fun i j => 1 / (1 + (dist_matrix i j / d0) ^ 2)
  let w_ij : Fin m → Fin n → ℝ := fun i j =>
    sigmoid (-(dist_matrix i j - cutoff) * steepness)
  let reward_matrix : Fin m → Fin n → ℝ := fun i j => s_ij i j * w_ij i j
  let P := sinkhorn_iterations (fun i j => Real.exp (gamma * reward_matrix i j))
    sinkhorn_iters
  ((∑ i, ∑ j, P i j * reward_matrix i j) / (len_b : ℝ), P)

/-- The reward formula exactly as the specification states it:
`reward[i][j] = (1/(1+(d/d0)^2)) * sigmoid(-(d-c)*k)` with `d0` taken at
the reference length. -/
def rewardSpec {m n : ℕ} (coords_a : Fin m → Fin 3 → ℝ)
    (coords_b : Fin n → Fin 3 → ℝ) (len_b : ℕ) (cutoff steepness : ℝ) :
    Fin m → Fin n → ℝ :=
  fun i j =>
    (1 / (1 + (cdist coords_a coords_b i j / get_d0 (len_b : ℝ)) ^ 2)) *
      sigmoid (-(cdist coords_a coords_b i j - cutoff) * steepness)

/-- The Sinkhorn normalization exactly as the specification states it: the
row step followed by the column step, iterated `n` times. -/
def sinkhornSpec {m n : ℕ} (M : Fin m → Fin n → ℝ) (iters : ℕ) :
    Fin m → Fin n → ℝ :=
  (fun P => colNormalize (rowNormalize P))^[iters] M

theorem sinkhorn_iterations_eq_iterate {m n : ℕ} :
    ∀ (iters : ℕ) (M : Fin m → Fin n → ℝ),
      sinkhorn_iterations M iters = sinkhornSpec M iters
  | 0, _ => rfl
  | iters + 1, M => by
    rw [sinkhorn_iterations, sinkhorn_iterations_eq_iterate iters, sinkhornSpec,
      sinkhornSpec, Function.iterate_succ_apply]

/-- C2: the soft-correspondence scorer returns
`P = sinkhorn(exp(gamma * reward))` with the reward formula of the
specification, the Sinkhorn step repeated `n` times as row division then
column division with a shared epsilon, and a score equal to
`sum(P * reward)` divided by the reference length. -/
theorem get_sinkhorn_alignment_score_spec {m n : ℕ} (coords_a : Fin m → Fin 3 → ℝ)
    (coords_b : Fin n → Fin 3 → ℝ) (len_b : ℕ) (cutoff steepness gamma : ℝ)
    (sinkhorn_iters : ℕ) :
    (get_sinkhorn_alignment_score coords_a coords_b len_b cutoff steepness gamma
        sinkhorn_iters).2 =
      sinkhornSpec
        (fun i j => Real.exp
          (gamma * rewardSpec coords_a coords_b len_b cutoff steepness i j))
        sinkhorn_iters ∧
    (get_sinkhorn_alignment_score coords_a coords_b len_b cutoff steepness gamma
        sinkhorn_iters).1 =
      (∑ i, ∑ j,
        (get_sinkhorn_alignment_score coords_a coords_b len_b cutoff steepness
            gamma sinkhorn_iters).2 i j *
          rewardSpec coords_a coords_b len_b cutoff steepness i j) /
        (len_b : ℝ) := by
  constructor
  · rw [get_sinkhorn_alignment_score]
    exact sinkhorn_iterations_eq_iterate sinkhorn_iters _
  · rfl

end Scorer

/-- Shorthand for the 3-by-3 real matrices of the geometric core. -/
abbrev Mat3 : Type := Matrix (Fin 3) (Fin 3) ℝ

noncomputable section Kabsch

/-- Embedding of `torch.mean(X, dim=0)`: the centroid of a point set
stored as rows of a `k`-by-3 matrix. -/
def centroid {k : ℕ} (X : Matrix (Fin k) (Fin 3) ℝ) : Fin 3 → ℝ :=
  fun j => (∑ i, X i j) / k

/-- A point set re-centered at its centroid, as in `A - centroid_A`. -/
def centered {k : ℕ} (X : Matrix (Fin k) (Fin 3) ℝ) : Matrix (Fin k) (Fin 3) ℝ :=
  Matrix.of fun i j => X i j - centroid X j

/-- The cross-covariance `H = A_c.T @ B_c` of the `kabsch` function. -/
def crossCovariance {k : ℕ} (A B : Matrix (Fin k) (Fin 3) ℝ) : Mat3 :=
  (centered A)ᵀ * centered B

/-- The reflection correction `V[:, -1] *= -1` of `kabsch`. -/
def negLastColumn (V : Mat3) : Mat3 :=
  Matrix.of fun i j => if j = 2 then -(V i j) else V i j

/-- The rotation computed by `kabsch` from the factors returned by
`torch.svd(H)`: `R = V @ U.T`, with the last column of `V` negated and `R`
recomputed when `det(R) < 0`. -/
def kabschRotation (U V : Mat3) : Mat3 :=
  if (V * Uᵀ).det < 0 then negLastColumn V * Uᵀ else V * Uᵀ

/-- The translation `t = centroid_B - R @ centroid_A` of `kabsch`. -/
def kabschTranslation {k : ℕ} (A B : Matrix (Fin k) (Fin 3) ℝ) (R : Mat3) :
    Fin 3 → ℝ :=
  centroid B - R *ᵥ centroid A

/-- Embedding of `kabsch`, parameterized by the singular value
decomposition `H = U * diagonal S * Vᵀ` that the external routine
`torch.svd` returns for the cross-covariance (the fact that the factors
form an SVD of `H` is a hypothesis of the theorems below). -/
def kabsch {k : ℕ} (A B : Matrix (Fin k) (Fin 3) ℝ) (U : Mat3) (S : Fin 3 → ℝ)
    (V : Mat3) : Mat3 × (Fin 3 → ℝ) :=
  (kabschRotation U V, kabschTranslation A B (kabschRotation U V))

/-- Application of a rigid transform to a point set stored as rows:
`(R @ X.T).T + t`. -/
def applyRigid {k : ℕ} (R : Mat3) (t : Fin 3 → ℝ)
    (X : Matrix (Fin k) (Fin 3) ℝ) : Matrix (Fin k) (Fin 3) ℝ :=
  Matrix.of fun i => R *ᵥ X i + t

/-- Sum of squared distances between corresponding rows. -/
def sqDistSum {k : ℕ} (X Y : Matrix (Fin k) (Fin 3) ℝ) : ℝ :=
  ∑ i, (X i - Y i) ⬝ᵥ (X i - Y i)

/-- Root-mean-square distance between corresponding rows, as in
`torch.sqrt(torch.mean(d_sq))`. -/
def rmsd {k : ℕ} (X Y : Matrix (Fin k) (Fin 3) ℝ) : ℝ :=
  Real.sqrt (sqDistSum X Y / k)

end Kabsch

section RotationTrace

theorem so3_adjugate_eq_transpose (P : Mat3) (hP : Pᵀ * P = 1)
    (hdet : P.det = 1) : P.adjugate = Pᵀ := by
  have hadj : P * P.adjugate = 1 := by
    rw [Matrix.mul_adjugate, hdet, one_smul]
  calc P.adjugate = 1 * P.adjugate := (Matrix.one_mul _).symm
    _ = Pᵀ * P * P.adjugate := by rw [hP]
    _ = Pᵀ * (P * P.adjugate) := Matrix.mul_assoc _ _ _
    _ = Pᵀ := by rw [hadj, Matrix.mul_one]

/-- A real 3-by-3 rotation matrix has trace at least `-1`.  The key
identity is `4*(1+tr P) = (1+tr P)^2 + (P 2 1 - P 1 2)^2 + (P 0 2 - P 2 0)^2
+ (P 1 0 - P 0 1)^2`, which holds on the special orthogonal group. -/
theorem so3_trace_ge_neg_one (P : Mat3) (hP : Pᵀ * P = 1)
    (hdet : P.det = 1) : -1 ≤ P.trace := by
  have hadjT := so3_adjugate_eq_transpose P hP hdet
  rw [Matrix.adjugate_fin_three] at hadjT
  have hc0 : P 1 1 * P 2 2 - P 1 2 * P 2 1 = P 0 0 := by
    have h := congrFun (congrFun hadjT 0) 0
    simpa using h
  have hc1 : P 0 0 * P 2 2 - P 0 2 * P 2 0 = P 1 1 := by
    have h := congrFun (congrFun hadjT 1) 1
    simpa using h
  have hc2 : P 0 0 * P 1 1 - P 0 1 * P 1 0 = P 2 2 := by
    have h := congrFun (congrFun hadjT 2) 2
    simpa using h
  have hN0 : P 0 0 * P 0 0 + P 1 0 * P 1 0 + P 2 0 * P 2 0 = 1 := by
    have h := congrFun (congrFun hP 0) 0
    simpa [Matrix.mul_apply, Fin.sum_univ_three, Matrix.one_apply] using h
  have hN1 : P 0 1 * P 0 1 + P 1 1 * P 1 1 + P 2 1 * P 2 1 = 1 := by
    have h := congrFun (congrFun hP 1) 1
    simpa [Matrix.mul_apply, Fin.sum_univ_three, Matrix.one_apply] using h
  have hN2 : P 0 2 * P 0 2 + P 1 2 * P 1 2 + P 2 2 * P 2 2 = 1 := by
    have h := congrFun (congrFun hP 2) 2
    simpa [Matrix.mul_apply, Fin.sum_univ_three, Matrix.one_apply] using h
  rw [Matrix.trace_fin_three]
  have key : 4 * (1 + (P 0 0 + P 1 1 + P 2 2)) =
      (1 + (P 0 0 + P 1 1 + P 2 2)) ^ 2 + (P 2 1 - P 1 2) ^ 2 +
        (P 0 2 - P 2 0) ^ 2 + (P 1 0 - P 0 1) ^ 2 := by
    linear_combination (-1 : ℝ) * hN0 - hN1 - hN2 - 2 * hc0 - 2 * hc1 - 2 * hc2
  nlinarith [sq_nonneg (1 + (P 0 0 + P 1 1 + P 2 2)),
    sq_nonneg (P 2 1 - P 1 2), sq_nonneg (P 0 2 - P 2 0),
    sq_nonneg (P 1 0 - P 0 1), key]

/-- A real 3-by-3 orthogonal matrix with determinant `-1` has trace at
most `1`. -/
theorem orthogonal_det_neg_trace_le_one (Q : Mat3) (hQ : Qᵀ * Q = 1)
    (hdet : Q.det = -1) : Q.trace ≤ 1 := by
  have h1 : (-Q)ᵀ * (-Q) = 1 := by
    rw [Matrix.transpose_neg, neg_mul_neg, hQ]
  have h2 : (-Q).det = 1 := by
    rw [Matrix.det_neg, hdet]
    norm_num
  have h3 := so3_trace_ge_neg_one (-Q) h1 h2
  rw [Matrix.trace_neg] at h3
  linarith

theorem orthogonal_diag_le_one (Q : Mat3) (hQ : Qᵀ * Q = 1) (i : Fin 3) :
    Q i i ≤ 1 := by
  have h := congrFun (congrFun hQ i) i
  rw [Matrix.mul_apply, Matrix.one_apply_eq] at h
  simp only [Matrix.transpose_apply] at h
  have hterm : Q i i * Q i i ≤ ∑ l, Q l i * Q l i :=
    Finset.single_le_sum (fun l _ => mul_self_nonneg (Q l i))
      (Finset.mem_univ i)
  rw [h] at hterm
  nlinarith [sq_nonneg (1 - Q i i)]

theorem orthogonal_det_sq_one (Q : Mat3) (hQ : Qᵀ * Q = 1) :
    Q.det = 1 ∨ Q.det = -1 := by
  have h := congrArg Matrix.det hQ
  rw [Matrix.det_mul, Matrix.det_transpose, Matrix.det_one] at h
  have hfac : (Q.det - 1) * (Q.det + 1) = 0 := by linear_combination h
  rcases mul_eq_zero.mp hfac with h1 | h1
  · exact Or.inl (by linarith)
  · exact Or.inr (by linarith)

end RotationTrace

section KabschTrace

/-- The sign pattern of the reflection correction. -/
def dneg : Fin 3 → ℝ := ![1, 1, -1]

theorem negLastColumn_eq (V : Mat3) :
    negLastColumn V = V * Matrix.diagonal dneg := by
  ext i j
  rw [Matrix.mul_diagonal]
  fin_cases j <;> simp [negLastColumn, dneg]

theorem diagonal_dneg_sq : Matrix.diagonal dneg * Matrix.diagonal dneg = 1 := by
  rw [Matrix.diagonal_mul_diagonal]
  have h : (fun i => dneg i * dneg i) = fun _ => (1 : ℝ) := by
    funext i
    fin_cases i <;> norm_num [dneg]
  rw [h, Matrix.diagonal_one]

theorem kabschRotation_orthogonal (U V : Mat3) (hU : Uᵀ * U = 1)
    (hV : Vᵀ * V = 1) :
    (kabschRotation U V)ᵀ * kabschRotation U V = 1 := by
  have hVV : V * Vᵀ = 1 := Matrix.mul_eq_one_comm.mp hV
  rw [kabschRotation]
  by_cases hdet : (V * Uᵀ).det < 0
  · rw [if_pos hdet, negLastColumn_eq]
    calc (V * Matrix.diagonal dneg * Uᵀ)ᵀ * (V * Matrix.diagonal dneg * Uᵀ)
        = U * ((Matrix.diagonal dneg)ᵀ * ((Vᵀ * V) *
            (Matrix.diagonal dneg * Uᵀ))) := by
          simp only [Matrix.transpose_mul, Matrix.transpose_transpose,
            Matrix.mul_assoc]
      _ = U * (Matrix.diagonal dneg * (Matrix.diagonal dneg * Uᵀ)) := by
          rw [Matrix.diagonal_transpose, hV, Matrix.one_mul]
      _ = U * ((Matrix.diagonal dneg * Matrix.diagonal dneg) * Uᵀ) := by
          simp only [Matrix.mul_assoc]
      _ = 1 := by rw [diagonal_dneg_sq, Matrix.one_mul, Matrix.mul_eq_one_comm.mp hU]
  · rw [if_neg hdet]
    calc (V * Uᵀ)ᵀ * (V * Uᵀ)
        = U * ((Vᵀ * V) * Uᵀ) := by
          simp only [Matrix.transpose_mul, Matrix.transpose_transpose,
            Matrix.mul_assoc]
      _ = 1 := by rw [hV, Matrix.one_mul, Matrix.mul_eq_one_comm.mp hU]

theorem trace_uncorrected (U V : Mat3) (S : Fin 3 → ℝ) (hU : Uᵀ * U = 1)
    (hV : Vᵀ * V = 1) :
    (V * Uᵀ * (U * Matrix.diagonal S * Vᵀ)).trace = ∑ i, S i := by
  have h1 : V * Uᵀ * (U * Matrix.diagonal S * Vᵀ) =
      V * Matrix.diagonal S * Vᵀ := by
    calc V * Uᵀ * (U * Matrix.diagonal S * Vᵀ)
        = V * (Uᵀ * U) * (Matrix.diagonal S * Vᵀ) := by
          simp only [Matrix.mul_assoc]
      _ = V * Matrix.diagonal S * Vᵀ := by
          rw [hU, Matrix.mul_one, Matrix.mul_assoc]
  rw [h1, Matrix.trace_mul_comm, ← Matrix.mul_assoc, hV, Matrix.one_mul,
    Matrix.trace_diagonal]

theorem trace_corrected (U V : Mat3) (S : Fin 3 → ℝ) (hU : Uᵀ * U = 1)
    (hV : Vᵀ * V = 1) :
    (negLastColumn V * Uᵀ * (U * Matrix.diagonal S * Vᵀ)).trace =
      S 0 + S 1 - S 2 := by
  have h1 : negLastColumn V * Uᵀ * (U * Matrix.diagonal S * Vᵀ) =
      V * (Matrix.diagonal dneg * Matrix.diagonal S) * Vᵀ := by
    rw [negLastColumn_eq]
    calc V * Matrix.diagonal dneg * Uᵀ * (U * Matrix.diagonal S * Vᵀ)
        = V * (Matrix.diagonal dneg * ((Uᵀ * U) *
            (Matrix.diagonal S * Vᵀ))) := by simp only [Matrix.mul_assoc]
      _ = V * (Matrix.diagonal dneg * Matrix.diagonal S) * Vᵀ := by
          rw [hU, Matrix.one_mul]
          simp only [Matrix.mul_assoc]
  rw [h1, Matrix.trace_mul_comm, ← Matrix.mul_assoc, hV, Matrix.one_mul,
    Matrix.diagonal_mul_diagonal, Matrix.trace_diagonal]
  rw [Fin.sum_univ_three]
  simp [dneg]
  ring

theorem trace_svd_decomp (U V : Mat3) (S : Fin 3 → ℝ) :
    (U * Matrix.diagonal S * Vᵀ).trace = ∑ i, (Vᵀ * U) i i * S i := by
  rw [Matrix.trace_mul_comm, ← Matrix.mul_assoc]
  rw [Matrix.trace]
  congr 1
  funext i
  rw [Matrix.diag_apply, Matrix.mul_diagonal]

theorem det_VUt_eq_det_Q (U V : Mat3) :
    (V * Uᵀ).det = (Vᵀ * U).det := by
  rw [Matrix.det_mul, Matrix.det_mul, Matrix.det_transpose,
    Matrix.det_transpose, mul_comm]

/-- The SVD-based rotation choice of `kabsch` does not decrease the
correlation trace: `tr H ≤ tr (R * H)` for the chosen `R`. -/
theorem trace_H_le_trace_kabschRotation (U V : Mat3) (S : Fin 3 → ℝ)
    (hU : Uᵀ * U = 1) (hV : Vᵀ * V = 1) (hS : ∀ i, 0 ≤ S i)
    (hS01 : S 1 ≤ S 0) (hS12 : S 2 ≤ S 1) :
    (U * Matrix.diagonal S * Vᵀ).trace ≤
      (kabschRotation U V * (U * Matrix.diagonal S * Vᵀ)).trace := by
  have hVV : V * Vᵀ = 1 := Matrix.mul_eq_one_comm.mp hV
  have hQorth : (Vᵀ * U)ᵀ * (Vᵀ * U) = 1 := by
    calc (Vᵀ * U)ᵀ * (Vᵀ * U)
        = Uᵀ * ((V * Vᵀ) * U) := by
          simp only [Matrix.transpose_mul, Matrix.transpose_transpose,
            Matrix.mul_assoc]
      _ = 1 := by rw [hVV, Matrix.one_mul, hU]
  have hdiag : ∀ i, (Vᵀ * U) i i ≤ 1 :=
    fun i => orthogonal_diag_le_one (Vᵀ * U) hQorth i
  rw [trace_svd_decomp, kabschRotation]
  by_cases hdet : (V * Uᵀ).det < 0
  · rw [if_pos hdet, trace_corrected U V S hU hV]
    have hdetQ : (Vᵀ * U).det = -1 := by
      rcases orthogonal_det_sq_one (Vᵀ * U) hQorth with h | h
      · rw [det_VUt_eq_det_Q, h] at hdet
        norm_num at hdet
      · exact h
    have htr : (Vᵀ * U).trace ≤ 1 :=
      orthogonal_det_neg_trace_le_one (Vᵀ * U) hQorth hdetQ
    rw [Matrix.trace_fin_three] at htr
    have h0 := hdiag 0
    have h1 := hdiag 1
    have hS2 := hS 2
    rw [Fin.sum_univ_three]
    nlinarith [mul_nonneg (sub_nonneg.mpr hS01)
        (sub_nonneg.mpr h0),
      mul_nonneg (sub_nonneg.mpr hS12)
        (by linarith : (0 : ℝ) ≤ 2 - (Vᵀ * U) 0 0 - (Vᵀ * U) 1 1),
      mul_nonneg hS2
        (by linarith :
          (0 : ℝ) ≤ 1 - (Vᵀ * U) 0 0 - (Vᵀ * U) 1 1 - (Vᵀ * U) 2 2)]
  · rw [if_neg hdet, trace_uncorrected U V S hU hV]
    refine Finset.sum_le_sum ?_
    intro i _
    calc (Vᵀ * U) i i * S i ≤ 1 * S i :=
          mul_le_mul_of_nonneg_right (hdiag i) (hS i)
      _ = S i := one_mul _

end KabschTrace

section KabschGeometry

variable {k : ℕ}

theorem mulVec_dotProduct_of_orthogonal (R : Mat3) (hR : Rᵀ * R = 1)
    (x y : Fin 3 → ℝ) : (R *ᵥ x) ⬝ᵥ (R *ᵥ y) = x ⬝ᵥ y := by
  rw [Matrix.dotProduct_mulVec]
  have h2 : R *ᵥ x = x ᵥ* Rᵀ := by
    have h := Matrix.mulVec_transpose Rᵀ x
    rwa [Matrix.transpose_transpose] at h
  rw [h2, Matrix.vecMul_vecMul, hR, Matrix.vecMul_one]

theorem trace_mul_crossCovariance (R : Mat3) (A B : Matrix (Fin k) (Fin 3) ℝ) :
    (R * crossCovariance A B).trace =
      ∑ i, (R *ᵥ centered A i) ⬝ᵥ centered B i := by
  unfold Matrix.trace
  simp only [Matrix.diag_apply, Matrix.mul_apply, crossCovariance,
    Matrix.transpose_apply, Matrix.dotProduct, Matrix.mulVec,
    Finset.mul_sum, Finset.sum_mul]
  calc ∑ j : Fin 3, ∑ l : Fin 3, ∑ i : Fin k,
        R j l * (centered A i l * centered B i j)
      = ∑ j : Fin 3, ∑ i : Fin k, ∑ l : Fin 3,
          R j l * (centered A i l * centered B i j) :=
        Finset.sum_congr rfl fun j _ => Finset.sum_comm
    _ = ∑ i : Fin k, ∑ j : Fin 3, ∑ l : Fin 3,
          R j l * (centered A i l * centered B i j) :=
        Finset.sum_comm
    _ = ∑ i : Fin k, ∑ j : Fin 3, ∑ l : Fin 3,
          R j l * centered A i l * centered B i j := by
        refine Finset.sum_congr rfl ?_
        intro i _
        refine Finset.sum_congr rfl ?_
        intro j _
        refine Finset.sum_congr rfl ?_
        intro l _
        ring

theorem sum_centered (hk : 0 < k) (X : Matrix (Fin k) (Fin 3) ℝ) (j : Fin 3) :
    ∑ i, centered X i j = 0 := by
  have hknz : (k : ℝ) ≠ 0 := Nat.cast_ne_zero.mpr hk.ne'
  simp only [centered, Matrix.of_apply, centroid]
  rw [Finset.sum_sub_distrib, Finset.sum_const, Finset.card_univ,
    Fintype.card_fin, nsmul_eq_mul, mul_div_cancel₀ _ hknz, sub_self]

theorem sqDistSum_identity_decomp (hk : 0 < k)
    (A B : Matrix (Fin k) (Fin 3) ℝ) :
    sqDistSum A B = sqDistSum (centered A) (centered B) +
      k * ((centroid A - centroid B) ⬝ᵥ (centroid A - centroid B)) := by
  have hcol : ∀ j, ∑ i, (A i j - B i j) * (A i j - B i j) =
      (∑ i, (centered A i j - centered B i j) *
        (centered A i j - centered B i j)) +
      k * ((centroid A j - centroid B j) * (centroid A j - centroid B j)) := by
    intro j
    have hu : ∑ i, (centered A i j - centered B i j) = 0 := by
      rw [Finset.sum_sub_distrib, sum_centered hk A j, sum_centered hk B j,
        sub_zero]
    have hterm : ∀ i, (A i j - B i j) * (A i j - B i j) =
        (centered A i j - centered B i j) * (centered A i j - centered B i j) +
        2 * (centroid A j - centroid B j) *
          (centered A i j - centered B i j) +
        (centroid A j - centroid B j) * (centroid A j - centroid B j) := by
      intro i
      simp only [centered, Matrix.of_apply]
      ring
    calc ∑ i, (A i j - B i j) * (A i j - B i j)
        = ∑ i, ((centered A i j - centered B i j) *
              (centered A i j - centered B i j) +
            2 * (centroid A j - centroid B j) *
              (centered A i j - centered B i j) +
            (centroid A j - centroid B j) * (centroid A j - centroid B j)) :=
          Finset.sum_congr rfl fun i _ => hterm i
      _ = (∑ i, (centered A i j - centered B i j) *
              (centered A i j - centered B i j)) +
            2 * (centroid A j - centroid B j) *
              (∑ i, (centered A i j - centered B i j)) +
            k * ((centroid A j - centroid B j) *
              (centroid A j - centroid B j)) := by
          rw [Finset.sum_add_distrib, Finset.sum_add_distrib, ← Finset.mul_sum,
            Finset.sum_const, Finset.card_univ, Fintype.card_fin,
            nsmul_eq_mul]
      _ = _ := by rw [hu, mul_zero, add_zero]
  simp only [sqDistSum, Matrix.dotProduct, Pi.sub_apply]
  rw [Finset.sum_comm]
  calc ∑ j, ∑ i, (A i j - B i j) * (A i j - B i j)
      = ∑ j, ((∑ i, (centered A i j - centered B i j) *
            (centered A i j - centered B i j)) +
          k * ((centroid A j - centroid B j) *
            (centroid A j - centroid B j))) :=
        Finset.sum_congr rfl fun j _ => hcol j
    _ = (∑ j, ∑ i, (centered A i j - centered B i j) *
            (centered A i j - centered B i j)) +
          k * ∑ j, (centroid A j - centroid B j) *
            (centroid A j - centroid B j) := by
        rw [Finset.sum_add_distrib, Finset.mul_sum]
    _ = _ := by rw [Finset.sum_comm]

theorem sqDistSum_centered_decomp (A B : Matrix (Fin k) (Fin 3) ℝ) :
    sqDistSum (centered A) (centered B) =
      (∑ i, centered A i ⬝ᵥ centered A i) +
        (∑ i, centered B i ⬝ᵥ centered B i) -
        2 * (crossCovariance A B).trace := by
  have h1 : (crossCovariance A B).trace =
      ∑ i, centered A i ⬝ᵥ centered B i := by
    have h := trace_mul_crossCovariance (1 : Mat3) A B
    rw [Matrix.one_mul] at h
    rw [h]
    refine Finset.sum_congr rfl ?_
    intro i _
    rw [Matrix.one_mulVec]
  rw [h1, sqDistSum]
  simp only [Matrix.dotProduct, Pi.sub_apply, Finset.mul_sum]
  rw [← Finset.sum_add_distrib, ← Finset.sum_sub_distrib]
  refine Finset.sum_congr rfl ?_
  intro i _
  rw [← Finset.sum_add_distrib, ← Finset.sum_sub_distrib]
  refine Finset.sum_congr rfl ?_
  intro j _
  ring

theorem sqDistSum_kabsch_decomp (R : Mat3) (hR : Rᵀ * R = 1)
    (A B : Matrix (Fin k) (Fin 3) ℝ) :
    sqDistSum (applyRigid R (kabschTranslation A B R) A) B =
      (∑ i, centered A i ⬝ᵥ centered A i) +
        (∑ i, centered B i ⬝ᵥ centered B i) -
        2 * (R * crossCovariance A B).trace := by
  have hpt : ∀ i, (applyRigid R (kabschTranslation A B R) A) i - B i =
      R *ᵥ centered A i - centered B i := by
    intro i
    funext j
    simp only [applyRigid, Matrix.of_apply, kabschTranslation, Pi.sub_apply,
      Pi.add_apply, Matrix.mulVec, Matrix.dotProduct, centered, mul_sub,
      Finset.sum_sub_distrib]
    ring
  have hterm : ∀ i, ((applyRigid R (kabschTranslation A B R) A) i - B i) ⬝ᵥ
      ((applyRigid R (kabschTranslation A B R) A) i - B i) =
      centered A i ⬝ᵥ centered A i - 2 * ((R *ᵥ centered A i) ⬝ᵥ centered B i)
        + centered B i ⬝ᵥ centered B i := by
    intro i
    rw [hpt i]
    rw [Matrix.sub_dotProduct, Matrix.dotProduct_sub, Matrix.dotProduct_sub]
    rw [mulVec_dotProduct_of_orthogonal R hR]
    rw [Matrix.dotProduct_comm (centered B i) (R *ᵥ centered A i)]
    ring
  rw [sqDistSum]
  calc ∑ i, ((applyRigid R (kabschTranslation A B R) A) i - B i) ⬝ᵥ
        ((applyRigid R (kabschTranslation A B R) A) i - B i)
      = ∑ i, (centered A i ⬝ᵥ centered A i -
          2 * ((R *ᵥ centered A i) ⬝ᵥ centered B i) +
          centered B i ⬝ᵥ centered B i) :=
        Finset.sum_congr rfl fun i _ => hterm i
    _ = (∑ i, centered A i ⬝ᵥ centered A i) -
          2 * (∑ i, (R *ᵥ centered A i) ⬝ᵥ centered B i) +
          (∑ i, centered B i ⬝ᵥ centered B i) := by
        rw [Finset.sum_add_distrib, Finset.sum_sub_distrib, Finset.mul_sum]
    _ = _ := by rw [trace_mul_crossCovariance]; ring

/-- C6: for any two equal-size point sets, the transform returned by the
Kabsch refiner (fed any valid singular value decomposition of the
cross-covariance, with nonnegative singular values in descending order as
`torch.svd` produces) yields a root-mean-square distance no larger than
the root-mean-square distance under the identity transform. -/
theorem kabsch_rmsd_le_identity (hk : 0 < k)
    (A B : Matrix (Fin k) (Fin 3) ℝ) (U : Mat3) (S : Fin 3 → ℝ) (V : Mat3)
    (hU : Uᵀ * U = 1) (hV : Vᵀ * V = 1) (hS : ∀ i, 0 ≤ S i)
    (hS01 : S 1 ≤ S 0) (hS12 : S 2 ≤ S 1)
    (hH : crossCovariance A B = U * Matrix.diagonal S * Vᵀ) :
    rmsd (applyRigid (kabsch A B U S V).1 (kabsch A B U S V).2 A) B ≤
      rmsd A B := by
  have hR := kabschRotation_orthogonal U V hU hV
  have htr : (crossCovariance A B).trace ≤
      (kabschRotation U V * crossCovariance A B).trace := by
    rw [hH]
    exact trace_H_le_trace_kabschRotation U V S hU hV hS hS01 hS12
  have hdotnn : 0 ≤ (centroid A - centroid B) ⬝ᵥ (centroid A - centroid B) :=
    Finset.sum_nonneg fun j _ => mul_self_nonneg _
  have hknn : (0 : ℝ) ≤ k := Nat.cast_nonneg k
  have hsq : sqDistSum (applyRigid (kabsch A B U S V).1 (kabsch A B U S V).2 A)
      B ≤ sqDistSum A B := by
    have hdec := sqDistSum_kabsch_decomp (kabschRotation U V) hR A B
    have hid := sqDistSum_identity_decomp hk A B
    have hcent := sqDistSum_centered_decomp A B
    have hmul : 0 ≤ (k : ℝ) *
        ((centroid A - centroid B) ⬝ᵥ (centroid A - centroid B)) :=
      mul_nonneg hknn hdotnn
    show sqDistSum
        (applyRigid (kabschRotation U V)
          (kabschTranslation A B (kabschRotation U V)) A) B ≤ sqDistSum A B
    rw [hdec, hid, hcent]
    linarith
  have hkpos : (0 : ℝ) < k := Nat.cast_pos.mpr hk
  rw [rmsd, rmsd]
  exact Real.sqrt_le_sqrt ((div_le_div_right hkpos).mpr hsq)

end KabschGeometry

noncomputable section Writer

/-- A rigid transform about a given center: re-center `X` by `center`,
apply `(R, u)` as `centered @ R.T + u`, then add the reference centroid.
This is the operation the specification describes, parameterized by which
centroid is used for the re-centering. -/
def transformAbout {k : ℕ} (center : Fin 3 → ℝ) (X : Matrix (Fin k) (Fin 3) ℝ)
    (R : Mat3) (u refCenter : Fin 3 → ℝ) : Matrix (Fin k) (Fin 3) ℝ :=
  Matrix.of fun i j => (∑ l, (X i l - center l) * R j l) + u j + refCenter j

/-- Embedding of the output-structure phase of `main`: the reloaded full
atom set is centered by `mobile_coords_full.mean(dim=0)` (the centroid of
the reloaded full set itself), transformed by `(R_final, u_final)`, and
shifted by the reference centroid. -/
def writerOutputCoords {k : ℕ} (fullCoords : Matrix (Fin k) (Fin 3) ℝ)
    (R : Mat3) (u refCenter : Fin 3 → ℝ) : Matrix (Fin k) (Fin 3) ℝ :=
  Matrix.of fun i j =>
    (∑ l, (fullCoords i l - centroid fullCoords l) * R j l) + u j + refCenter j

/-- Two-atom full point set whose centroid differs from its alpha-carbon
subset's centroid. -/
def demoFullPts : Matrix (Fin 2) (Fin 3) ℝ :=
  Matrix.of ![![1, 0, 0], ![3, 0, 0]]

/-- The alpha-carbon subset of `demoFullPts`, holding only its first
atom. -/
def demoCAPts : Matrix (Fin 1) (Fin 3) ℝ :=
  Matrix.of ![![1, 0, 0]]

end Writer

/-- Counterexample to C4 as stated: the writer centers the reloaded full
atom set by the full set's own centroid, not by the centroid of the
alpha-carbon set used during optimization; with the identity transform
the two recipes produce different coordinates whenever those centroids
differ. -/
theorem writer_centroid_counterexample :
    writerOutputCoords demoFullPts 1 0 0 ≠
      transformAbout (centroid demoCAPts) demoFullPts 1 0 0 := by
  intro h
  have h0 := congrFun (congrFun h 0) 0
  simp [writerOutputCoords, transformAbout, centroid, demoFullPts, demoCAPts,
    Fin.sum_univ_three, Fin.sum_univ_two, Matrix.one_apply] at h0
  norm_num at h0

/-- C4 (amended): the writer re-centers the reloaded full atom set by the
centroid of the full set itself, applies the final optimizer transform,
and adds the reference centroid; this agrees with re-centering by the
optimization (alpha-carbon) centroid exactly when the two centroids
coincide. -/
theorem writer_output_coords_spec {k m : ℕ}
    (full : Matrix (Fin k) (Fin 3) ℝ) (ca : Matrix (Fin m) (Fin 3) ℝ)
    (R : Mat3) (u refCenter : Fin 3 → ℝ) :
    writerOutputCoords full R u refCenter =
      transformAbout (centroid full) full R u refCenter ∧
    (centroid ca = centroid full →
      writerOutputCoords full R u refCenter =
        transformAbout (centroid ca) full R u refCenter) := by
  refine ⟨rfl, ?_⟩
  intro h
  rw [h]
  rfl

/-- Witness for the amended C4: with the alpha-carbon set equal to the
full set the two centroids coincide and the recipes agree. -/
theorem writer_output_coords_spec_witness :
    writerOutputCoords demoFullPts 1 0 0 =
      transformAbout (centroid demoFullPts) demoFullPts 1 0 0 ∧
    writerOutputCoords demoFullPts 1 0 0 =
      transformAbout (centroid demoFullPts) demoFullPts 1 0 0 :=
  ⟨(writer_output_coords_spec demoFullPts demoFullPts 1 0 0).1,
   (writer_output_coords_spec demoFullPts demoFullPts 1 0 0).2 rfl⟩

/-- A singleton point set at the origin, used to witness the Kabsch
theorem at a concrete input. -/
def kabschDemoA : Matrix (Fin 1) (Fin 3) ℝ := 0

/-- The zero singular values of the zero cross-covariance. -/
def kabschDemoS : Fin 3 → ℝ := fun _ => 0

theorem kabschDemo_svd :
    crossCovariance kabschDemoA kabschDemoA =
      1 * Matrix.diagonal kabschDemoS * (1 : Mat3)ᵀ := by
  have h1 : (1 : Mat3) * Matrix.diagonal kabschDemoS * (1 : Mat3)ᵀ = 0 := by
    rw [Matrix.one_mul, Matrix.transpose_one, Matrix.mul_one]
    have h2 : kabschDemoS = fun _ => 0 := rfl
    rw [h2, Matrix.diagonal_zero]
  rw [h1]
  ext i j
  simp [crossCovariance, centered, centroid, kabschDemoA, Matrix.mul_apply]

/-- Witness for C6 at the singleton zero point sets with the trivial
singular value decomposition of the zero cross-covariance. -/
theorem kabsch_rmsd_le_identity_witness :
    rmsd (applyRigid
        (kabsch kabschDemoA kabschDemoA 1 kabschDemoS 1).1
        (kabsch kabschDemoA kabschDemoA 1 kabschDemoS 1).2 kabschDemoA)
      kabschDemoA ≤ rmsd kabschDemoA kabschDemoA :=
  kabsch_rmsd_le_identity (by norm_num) kabschDemoA kabschDemoA 1 kabschDemoS 1
    (by simp) (by simp) (fun i => le_refl 0) (le_refl 0) (le_refl 0)
    kabschDemo_svd

noncomputable section Analysis

/-- The quality metrics and output flags produced by the analysis and
output phases of `main` after decoding. -/
structure AnalysisResult where
  metrics : Option (ℝ × ℝ × ℝ × ℝ)
  wroteOutput : Bool
  wroteMatrix : Bool

/-- The quality-metrics block of `main` (guarded by `aligned_len > 0`):
the Kabsch RMSD over the aligned subsets (with the external SVD of their
cross-covariance supplied as `U`, `S`, `V`), the two TM-score
normalizations under the optimizer's final transform, and the sequence
identity fraction. -/
def qualityMetrics {m n : ℕ} (mobileOpt : Matrix (Fin m) (Fin 3) ℝ)
    (refOpt : Matrix (Fin n) (Fin 3) ℝ)
    (finalAligned : Matrix (Fin m) (Fin 3) ℝ)
    (mobileSeq : Fin m → Char) (refSeq : Fin n → Char)
    (pairs : List (Fin m × Fin n)) (U : Mat3) (S : Fin 3 → ℝ) (V : Mat3) :
    ℝ × ℝ × ℝ × ℝ :=
  let Apts : Matrix (Fin pairs.length) (Fin 3) ℝ :=
    Matrix.of fun t j => mobileOpt (pairs.get t).1 j
  let Bpts : Matrix (Fin pairs.length) (Fin 3) ℝ :=
    Matrix.of fun t j => refOpt (pairs.get t).2 j
  let kab := kabsch Apts Bpts U S V
  let kabschRmsd := rmsd (applyRigid kab.1 kab.2 Apts) Bpts
  let dSq : Fin m × Fin n → ℝ := fun p =>
    ∑ j, (finalAligned p.1 j - refOpt p.2 j) ^ 2
  let tmRef := (pairs.map fun p =>
    1 / (1 + dSq p / get_d0 (n : ℝ) ^ 2)).sum / (n : ℝ)
  let tmMob := (pairs.map fun p =>
    1 / (1 + dSq p / get_d0 (m : ℝ) ^ 2)).sum / (m : ℝ)
  let seqId := ((pairs.countP fun p =>
    decide (mobileSeq p.1 = refSeq p.2)) : ℝ) / (pairs.length : ℝ)
  (kabschRmsd, tmRef, tmMob, seqId)

/-- The analysis and output phases of `main` after decoding: the metrics
block runs only when at least one pair was decoded, and the two output
files are written (when requested) regardless. -/
def analysisPhase {m n : ℕ} (mobileOpt : Matrix (Fin m) (Fin 3) ℝ)
    (refOpt : Matrix (Fin n) (Fin 3) ℝ)
    (finalAligned : Matrix (Fin m) (Fin 3) ℝ)
    (mobileSeq : Fin m → Char) (refSeq : Fin n → Char)
    (pairs : List (Fin m × Fin n)) (U : Mat3) (S : Fin 3 → ℝ) (V : Mat3)
    (outputRequested matrixRequested : Bool) : AnalysisResult :=
  if 0 < pairs.length then
    { metrics := some (qualityMetrics mobileOpt refOpt finalAligned mobileSeq
        refSeq pairs U S V)
      wroteOutput := outputRequested
      wroteMatrix := matrixRequested }
  else
    { metrics := none
      wroteOutput := outputRequested
      wroteMatrix := matrixRequested }

end Analysis

/-- C10: when the decoded alignment is empty the quality-metrics block is
skipped entirely (no Kabsch fit, no division by the aligned-pair count),
and the run still writes its requested outputs. -/
theorem analysis_phase_empty_alignment {m n : ℕ}
    (mobileOpt : Matrix (Fin m) (Fin 3) ℝ)
    (refOpt : Matrix (Fin (n + 1)) (Fin 3) ℝ)
    (finalAligned : Matrix (Fin m) (Fin 3) ℝ)
    (mobileSeq : Fin m → Char) (refSeq : Fin (n + 1) → Char)
    (P : Fin m → Fin (n + 1) → ℝ) (U : Mat3) (S : Fin 3 → ℝ) (V : Mat3)
    (outputRequested matrixRequested : Bool)
    (h : decode_alignment_matrix P = []) :
    (analysisPhase mobileOpt refOpt finalAligned mobileSeq refSeq
        (decode_alignment_matrix P) U S V outputRequested
        matrixRequested).metrics = none ∧
    (analysisPhase mobileOpt refOpt finalAligned mobileSeq refSeq
        (decode_alignment_matrix P) U S V outputRequested
        matrixRequested).wroteOutput = outputRequested ∧
    (analysisPhase mobileOpt refOpt finalAligned mobileSeq refSeq
        (decode_alignment_matrix P) U S V outputRequested
        matrixRequested).wroteMatrix = matrixRequested := by
  rw [analysisPhase, h]
  simp

/-- Witness for C10: with a zero-row assignment matrix the decoder returns
no pairs and the analysis phase reports no metrics but still writes both
requested outputs. -/
theorem analysis_phase_empty_alignment_witness :
    (analysisPhase (0 : Matrix (Fin 0) (Fin 3) ℝ) kabschDemoA
        (0 : Matrix (Fin 0) (Fin 3) ℝ) (fun _ => 'A') (fun _ => 'A')
        (decode_alignment_matrix (fun _ _ => (0 : ℝ)))
        1 kabschDemoS 1 true true).metrics = none ∧
    (analysisPhase (0 : Matrix (Fin 0) (Fin 3) ℝ) kabschDemoA
        (0 : Matrix (Fin 0) (Fin 3) ℝ) (fun _ => 'A') (fun _ => 'A')
        (decode_alignment_matrix (fun _ _ => (0 : ℝ)))
        1 kabschDemoS 1 true true).wroteOutput = true ∧
    (analysisPhase (0 : Matrix (Fin 0) (Fin 3) ℝ) kabschDemoA
        (0 : Matrix (Fin 0) (Fin 3) ℝ) (fun _ => 'A') (fun _ => 'A')
        (decode_alignment_matrix (fun _ _ => (0 : ℝ)))
        1 kabschDemoS 1 true true).wroteMatrix = true :=
  analysis_phase_empty_alignment 0 kabschDemoA 0 (fun _ => 'A') (fun _ => 'A')
    (fun _ _ => (0 : ℝ)) 1 kabschDemoS 1 true true rfl

end LieOTAlign
